import Mathlib

/-!
Verification of the PII detection-and-redaction engine
(`detector_devanarayanan.py`, class `PiiScanner`).

The engine is embedded shallowly:

* Python values reaching the scanner are either strings (`Value.vstr`)
  or non-string values; a non-string value is opaque to the scanner
  except for its `str(...)` rendering, which `Value.vother` carries.
* A Python `dict` is an association list in insertion order; lookup
  takes the first matching key and assignment replaces it in place.
* A compiled regular expression is represented by its `fullmatch`
  predicate `String → Bool`; scores are exact rationals.
* Statements that can raise (`self.redactors[...]`, `rec[key]`) are
  modelled in `Except`, so a `KeyError` escaping `scan` is visible as
  an `Except.error` result.
* The local variables of `scan` (`safe_rec`, `score`, `log`) together
  with the read-only `rec` and configuration form an explicit state
  (`ScanState`); every assignment in the source updates exactly one
  field of that state, which lets frame properties (the input record
  and the catalog are never written) be stated and proved.
-/

/-- Python value as seen by the scanner: a string, or any non-string
value together with its `str(...)` rendering. -/
inductive Value where
  | vstr (s : String)
  | vother (rendering : String)
deriving DecidableEq

/-- Python `str(v)`: identity on strings, the carried rendering otherwise. -/
def strOf : Value → String
  | .vstr s => s
  | .vother r => r

/-- Python dict with `String` keys, in insertion order. -/
abbrev Dict := List (String × Value)

/-- Lookup in an association list (first match), `d.get(k)` / `k in d`. -/
def alGet {α : Type} : List (String × α) → String → Option α
  | [], _ => none
  | (k2, v) :: rest, k => if k2 = k then some v else alGet rest k

/-- Assignment `d[k] = v`: replace the first binding of `k` in place,
append a new binding if `k` is absent. -/
def alSet {α : Type} : List (String × α) → String → α → List (String × α)
  | [], k, v => [(k, v)]
  | (k2, v2) :: rest, k, v =>
    if k2 = k then (k, v) :: rest else (k2, v2) :: alSet rest k v

/-- Key list of an association list. -/
def alKeys {α : Type} (d : List (String × α)) : List String := d.map Prod.fst

/-- Membership test `k in d`. -/
def alMem {α : Type} (d : List (String × α)) (k : String) : Bool :=
  (alGet d k).isSome

/-- Core of `_mask_str` on the character list of a string of length ≥ 5 or
the fixed placeholder below 5: first 2 characters, then `length - 4`
copies of `X`, then the last 2 characters (source lines 37-39). -/
def maskChars (l : List Char) : List Char :=
  if l.length < 5 then ['*', '*', '*', '*']
  else l.take 2 ++ List.replicate (l.length - 4) 'X' ++ l.drop (l.length - 2)

/-- The `_mask_str` body applied to an actual string. -/
def maskStrS (s : String) : String := String.mk (maskChars s.data)

/-- Method `PiiScanner._mask_str`: `"****"` for a non-string or a string of
fewer than 5 characters, otherwise first 2 + `X` padding + last 2. -/
def mask_string : Value → String
  | .vstr s => maskStrS s
  | .vother _ => "****"

/-- Split a character list at the first `@`, as `str.split('@', 1)` with
two results; `none` when no `@` occurs. -/
def splitFirst : List Char → Option (List Char × List Char)
  | [] => none
  | c :: cs =>
    if c = '@' then some ([], cs)
    else match splitFirst cs with
      | none => none
      | some (u, d) => some (c :: u, d)

/-- Method `PiiScanner._mask_mail`: mask the local part and keep the domain;
on a `ValueError` (no `@`) or `AttributeError` (non-string) fall back
to `_mask_str(str(mail))` (source lines 41-46). -/
def mask_email : Value → String
  | .vstr s =>
    match splitFirst s.data with
    | some (u, d) => maskStrS (String.mk u) ++ "@" ++ String.mk d
    | none => maskStrS s
  | .vother r => maskStrS r

/-- Method `PiiScanner._mask_num`: `_mask_str(str(num))` (source lines 48-49). -/
def mask_numeric (v : Value) : String := maskStrS (strOf v)

/-- The `self.redactors` dispatch table (source lines 30-35): name to
masking function, `none` for an unknown name (a `KeyError` on indexing). -/
def getRedactor (name : String) : Option (Value → String) :=
  if name = "mask_string" then some mask_string
  else if name = "mask_email" then some mask_email
  else if name = "mask_numeric" then some mask_numeric
  else none

/-- One entry of `standalone_pii_patterns`: the compiled pattern is kept
as its `fullmatch` predicate. -/
structure StandaloneRule where
  pattern : String → Bool
  base_score : ℚ
  redactor : String

/-- One entry of `combinatorial_pii_sets`. -/
structure ComboRule where
  keys : List String
  base_score : ℚ

/-- The loaded configuration (`self.conf` after `_compile_regex`). -/
structure Config where
  standalone_pii_patterns : List (String × StandaloneRule)
  combinatorial_pii_sets : List (String × ComboRule)
  redaction_placeholders : List (String × String)

/-- State of one `scan` call: the catalog and input record (read-only in
the source) and the local variables `safe_rec`, `score`, `log`. -/
structure ScanState where
  cfg : Config
  record : Dict
  safe : Dict
  score : ℚ
  log : List String

/-- Test of source lines 57-58: the field is present, its value is a
string, and the value full-matches the rule's pattern. -/
def fires (r : Dict) (k : String) (rule : StandaloneRule) : Bool :=
  match alGet r k with
  | some (.vstr s) => rule.pattern s
  | _ => false

/-- Log entry of source line 60. -/
def soloMsg (k : String) : String := "found solo pii [" ++ k ++ "]"

/-- Log entry of source line 69. -/
def comboMsg (found : List String) : String :=
  "found combo pii [" ++ String.intercalate "+" found ++ "]"

/-- One iteration of the standalone loop (source lines 56-62): when the
rule fires, add its `base_score`, log the field, and overwrite the field
in `safe_rec` with the configured redactor's output; an unknown redactor
name raises a `KeyError` on `self.redactors[...]`. -/
def standaloneStep (st : ScanState) (p : String × StandaloneRule) :
    Except String ScanState :=
  match alGet st.record p.1 with
  | some (.vstr s) =>
    if p.2.pattern s then
      match getRedactor p.2.redactor with
      | some f =>
        .ok { st with
          score := st.score + p.2.base_score,
          log := st.log ++ [soloMsg p.1],
          safe := alSet st.safe p.1 (.vstr (f (.vstr s))) }
      | none => .error ("KeyError: " ++ p.2.redactor)
    else .ok st
  | _ => .ok st

/-- The standalone loop over all rules. -/
def standalonePass : List (String × StandaloneRule) → ScanState →
    Except String ScanState
  | [], st => .ok st
  | p :: rest, st =>
    match standaloneStep st p with
    | .ok st2 => standalonePass rest st2
    | .error e => .error e

/-- Keys of a combinatorial rule present in the record, in rule order
(source line 66). -/
def presentKeys (r : Dict) (rule : ComboRule) : List String :=
  rule.keys.filter (fun k => alMem r k)

/-- Update of the Python set `combo_keys` with a list of keys, keeping
first-seen order and no duplicates. -/
def dedupAppend (ks : List String) (new : List String) : List String :=
  new.foldl (fun acc k => if k ∈ acc then acc else acc ++ [k]) ks

/-- The combinatorial loop (source lines 64-70): each rule with at least
2 present keys adds `base_score * count` and a log entry, and its present
keys join the pending set `combo_keys`. -/
def comboPass : List (String × ComboRule) → ScanState → List String →
    ScanState × List String
  | [], st, ks => (st, ks)
  | p :: rest, st, ks =>
    let found := presentKeys st.record p.2
    if 2 ≤ found.length then
      comboPass rest
        { st with
          score := st.score + p.2.base_score * (found.length : ℚ),
          log := st.log ++ [comboMsg found] }
        (dedupAppend ks found)
    else comboPass rest st ks

/-- One iteration of the pending-redaction loop (source lines 72-77):
a placeholder naming a known strategy applies it to the original value
`rec[key]`; any other truthy placeholder is stored literally; a missing
or falsy (empty) placeholder leaves `safe_rec` unchanged. -/
def redactStep (st : ScanState) (k : String) : Except String ScanState :=
  match alGet st.cfg.redaction_placeholders k with
  | some m =>
    match getRedactor m with
    | some f =>
      match alGet st.record k with
      | some v => .ok { st with safe := alSet st.safe k (.vstr (f v)) }
      | none => .error "KeyError: rec"
    | none =>
      if m = "" then .ok st else .ok { st with safe := alSet st.safe k (.vstr m) }
  | none => .ok st

/-- The pending-redaction loop over the accumulated `combo_keys`. -/
def redactPass : List String → ScanState → Except String ScanState
  | [], st => .ok st
  | k :: rest, st =>
    match redactStep st k with
    | .ok st2 => redactPass rest st2
    | .error e => .error e

/-- Python `min(1.0, score)` (source line 79). -/
def pymin (a b : ℚ) : ℚ := if b < a then b else a

/-- Python 3 `round` to an integer: round half to even. -/
def rhe (q : ℚ) : ℤ :=
  let f := ⌊q⌋
  let r := q - (f : ℚ)
  if r < mkRat 1 2 then f
  else if mkRat 1 2 < r then f + 1
  else if f % 2 = 0 then f else f + 1

/-- Python `round(confidence, 2)` (source line 83). -/
def round2 (q : ℚ) : ℚ := mkRat (rhe (mkRat 100 1 * q)) 100

/-- Result quadruple of `scan` (source line 83). -/
structure ScanResult where
  safe_rec : Dict
  is_pii : Bool
  confidence : ℚ
  reason : String
deriving DecidableEq

/-- Source lines 79-83: clamp the score, decide the verdict on the
unrounded value, round the reported confidence, join the log. -/
def finishScan (st : ScanState) : ScanResult :=
  let conf := pymin 1 st.score
  { safe_rec := st.safe,
    is_pii := decide (mkRat 1 2 < conf),
    confidence := round2 conf,
    reason := if st.log.isEmpty then "No PII detected"
              else String.intercalate ", " st.log }

/-- Initial state of a `scan` call: `safe_rec = rec.copy()`, `score = 0.0`,
`log = []` (source lines 52-54). -/
def initState (cfg : Config) (r : Dict) : ScanState :=
  { cfg := cfg, record := r, safe := r, score := 0, log := [] }

/-- The three loops of `scan`, returning the final state. -/
def scanStates (cfg : Config) (r : Dict) : Except String ScanState :=
  match standalonePass cfg.standalone_pii_patterns (initState cfg r) with
  | .error e => .error e
  | .ok st1 =>
    let pr := comboPass cfg.combinatorial_pii_sets st1 []
    redactPass pr.2 pr.1

/-- Method `PiiScanner.scan` (source lines 51-83). -/
def scanE (cfg : Config) (r : Dict) : Except String ScanResult :=
  match scanStates cfg r with
  | .error e => .error e
  | .ok st => .ok (finishScan st)

/-- Score contributed by the standalone pass, as a closed sum. -/
def standaloneScore (r : Dict) (rules : List (String × StandaloneRule)) : ℚ :=
  (rules.map (fun p => if fires r p.1 p.2 then p.2.base_score else 0)).sum

/-- Score contributed by the combinatorial pass, as a closed sum. -/
def comboScorePure (r : Dict) (rules : List (String × ComboRule)) : ℚ :=
  (rules.map (fun p =>
    let n := (presentKeys r p.2).length
    if 2 ≤ n then p.2.base_score * (n : ℚ) else 0)).sum

/-- The pending set `combo_keys` as a function of the record alone. -/
def comboKeysPure (r : Dict) (rules : List (String × ComboRule)) : List String :=
  rules.foldl (fun ks p =>
    let found := presentKeys r p.2
    if 2 ≤ found.length then dedupAppend ks found else ks) []

/-- Validity of the catalog: every redactor name used by a standalone
rule is a known strategy (the invariant stated in the data model). -/
def ValidConfig (cfg : Config) : Prop :=
  ∀ p ∈ cfg.standalone_pii_patterns, (getRedactor p.2.redactor).isSome = true

/-- Pending-set accumulator of the combinatorial loop, from an arbitrary
initial set. -/
def comboKeysAux (r : Dict) (rules : List (String × ComboRule))
    (ks : List String) : List String :=
  rules.foldl (fun a p =>
    let found := presentKeys r p.2
    if 2 ≤ found.length then dedupAppend a found else a) ks

/-- Expected value at key `k` of `safe_rec` after the pending-redaction
loop, given its previous value there: a recognized strategy name applies
the strategy to the original value `rec[k]`, a non-empty literal is
stored as is, and a missing or empty assignment leaves the value alone. -/
def redactSpec (cfg : Config) (r : Dict) (prev : Option Value) (k : String) :
    Option Value :=
  match alGet cfg.redaction_placeholders k with
  | some m =>
    match getRedactor m with
    | some f => (alGet r k).map (fun v => .vstr (f v))
    | none => if m = "" then prev else some (.vstr m)
  | none => prev

theorem comboKeysPure_eq_aux (r : Dict) (rules : List (String × ComboRule)) :
    comboKeysPure r rules = comboKeysAux r rules [] := rfl

theorem alGet_alSet_self {α : Type} (d : List (String × α)) (k : String) (v : α) :
    alGet (alSet d k v) k = some v := by
  induction d with
  | nil => simp [alGet, alSet]
  | cons p rest ih =>
    by_cases h : p.1 = k <;> simp [alGet, alSet, h, ih]

theorem alGet_alSet_ne {α : Type} (d : List (String × α)) (k k2 : String) (v : α)
    (h : k ≠ k2) : alGet (alSet d k v) k2 = alGet d k2 := by
  induction d with
  | nil => simp [alGet, alSet, h]
  | cons p rest ih =>
    by_cases h2 : p.1 = k <;> simp [alGet, alSet, h2, h, ih]

theorem alKeys_alSet_of_mem {α : Type} (d : List (String × α)) (k : String) (v : α)
    (h : (alGet d k).isSome = true) : alKeys (alSet d k v) = alKeys d := by
  induction d with
  | nil => simp [alGet] at h
  | cons p rest ih =>
    by_cases h2 : p.1 = k
    · simp [alSet, alKeys, h2]
    · simp [alGet, h2] at h
      simp [alSet, alKeys, h2, alKeys] at ih ⊢
      exact ih h

theorem alGet_isSome_iff_mem {α : Type} (d : List (String × α)) (k : String) :
    (alGet d k).isSome = true ↔ k ∈ alKeys d := by
  induction d with
  | nil => simp [alGet, alKeys]
  | cons p rest ih =>
    by_cases h : p.1 = k <;> simp [alGet, alKeys, h, ih]
    exact fun h2 => (h h2.symm).elim

theorem alMem_eq_of_keys_eq {α β : Type} (d1 : List (String × α))
    (d2 : List (String × β)) (h : alKeys d1 = alKeys d2) (k : String) :
    alMem d1 k = alMem d2 k := by
  have h1 := alGet_isSome_iff_mem d1 k
  have h2 := alGet_isSome_iff_mem d2 k
  rw [h] at h1
  unfold alMem
  rw [Bool.eq_iff_iff, h1, h2]

theorem dedupAppend_cons (ks : List String) (n : String) (rest : List String) :
    dedupAppend ks (n :: rest) =
      dedupAppend (if n ∈ ks then ks else ks ++ [n]) rest := rfl

theorem dedupAppend_nodup (new ks : List String) (h : ks.Nodup) :
    (dedupAppend ks new).Nodup := by
  induction new generalizing ks with
  | nil => simpa [dedupAppend] using h
  | cons n rest ih =>
    rw [dedupAppend_cons]
    by_cases hn : n ∈ ks
    · simp only [hn, if_true]
      exact ih ks h
    · simp only [hn, if_false]
      refine ih (ks ++ [n]) ?_
      simp [List.nodup_append, h, hn]

theorem dedupAppend_mem (new ks : List String) (k : String) :
    k ∈ dedupAppend ks new ↔ k ∈ ks ∨ k ∈ new := by
  induction new generalizing ks with
  | nil => simp [dedupAppend]
  | cons n rest ih =>
    rw [dedupAppend_cons]
    by_cases hn : n ∈ ks
    · rw [if_pos hn, ih]
      constructor
      · rintro (h | h)
        · exact Or.inl h
        · exact Or.inr (List.mem_cons_of_mem n h)
      · rintro (h | h)
        · exact Or.inl h
        · rcases List.mem_cons.mp h with h | h
          · exact Or.inl (h ▸ hn)
          · exact Or.inr h
    · rw [if_neg hn, ih]
      simp only [List.mem_append, List.mem_singleton, List.mem_cons]
      tauto

theorem mkRat_half : (mkRat 1 2 : ℚ) = 1 / 2 := by
  rw [Rat.mkRat_eq_div]; norm_num

theorem mkRat_hundred : (mkRat 100 1 : ℚ) = 100 := by
  rw [Rat.mkRat_eq_div]; norm_num

theorem pymin_eq_min (a b : ℚ) : pymin a b = min a b := by
  unfold pymin
  rcases lt_or_ge b a with h | h
  · rw [if_pos h, min_eq_right h.le]
  · rw [if_neg (not_lt.mpr h), min_eq_left h]

theorem rhe_mono {a b : ℚ} (h : a ≤ b) : rhe a ≤ rhe b := by
  simp only [rhe, mkRat_half]
  have hfab : ⌊a⌋ ≤ ⌊b⌋ := Int.floor_mono h
  rcases lt_or_eq_of_le hfab with hlt | heq
  · have h1 : ⌊a⌋ + 1 ≤ ⌊b⌋ := hlt
    split_ifs <;> omega
  · have hr : a - (⌊a⌋ : ℚ) ≤ b - (⌊b⌋ : ℚ) := by
      rw [← heq]; linarith
    rw [heq] at hr ⊢
    split_ifs <;> first | omega | linarith

theorem rhe_intCast (n : ℤ) : rhe ((n : ℤ) : ℚ) = n := by
  simp only [rhe, mkRat_half, Int.floor_intCast]
  norm_num

theorem round2_mono {a b : ℚ} (h : a ≤ b) : round2 a ≤ round2 b := by
  simp only [round2, mkRat_hundred]
  simp only [Rat.mkRat_eq_div]
  have h2 : rhe (100 * a) ≤ rhe (100 * b) := by
    apply rhe_mono
    nlinarith
  have h3 : ((rhe (100 * a) : ℤ) : ℚ) ≤ ((rhe (100 * b) : ℤ) : ℚ) := by
    exact_mod_cast h2
  have h100 : (0:ℚ) < ((100 : ℕ) : ℚ) := by norm_num
  exact (div_le_div_right h100).mpr h3

theorem round2_zero : round2 0 = 0 := by
  simp only [round2, mkRat_hundred, mul_zero]
  have h : rhe ((0 : ℤ) : ℚ) = 0 := rhe_intCast 0
  norm_num at h
  rw [h, Rat.mkRat_eq_div]
  norm_num

theorem round2_one : round2 1 = 1 := by
  simp only [round2, mkRat_hundred, mul_one]
  have h : rhe ((100 : ℤ) : ℚ) = 100 := rhe_intCast 100
  norm_num at h
  rw [h, Rat.mkRat_eq_div]
  norm_num

theorem fires_iff_exists (r : Dict) (k : String) (rule : StandaloneRule) :
    fires r k rule = true ↔
      ∃ s, alGet r k = some (.vstr s) ∧ rule.pattern s = true := by
  unfold fires
  cases hv : alGet r k with
  | none => simp
  | some v => cases v with
    | vstr s => simp
    | vother r2 => simp

theorem standaloneStep_nofire (st : ScanState) (p : String × StandaloneRule)
    (h : fires st.record p.1 p.2 = false) : standaloneStep st p = .ok st := by
  unfold fires at h
  unfold standaloneStep
  cases hv : alGet st.record p.1 with
  | none => rfl
  | some v => cases v with
    | vstr s =>
      rw [hv] at h
      simp only [] at h
      simp [h]
    | vother r => rfl

theorem standaloneStep_fire_eq (st : ScanState) (p : String × StandaloneRule)
    (s : String) (f : Value → String)
    (hv : alGet st.record p.1 = some (.vstr s)) (hp : p.2.pattern s = true)
    (hr : getRedactor p.2.redactor = some f) :
    standaloneStep st p = .ok
      { st with score := st.score + p.2.base_score,
                log := st.log ++ [soloMsg p.1],
                safe := alSet st.safe p.1 (.vstr (f (.vstr s))) } := by
  unfold standaloneStep
  rw [hv]
  simp [hp, hr]

theorem standaloneStep_fire_err (st : ScanState) (p : String × StandaloneRule)
    (s : String)
    (hv : alGet st.record p.1 = some (.vstr s)) (hp : p.2.pattern s = true)
    (hr : getRedactor p.2.redactor = none) :
    standaloneStep st p = .error ("KeyError: " ++ p.2.redactor) := by
  unfold standaloneStep
  rw [hv]
  simp [hp, hr]

theorem standaloneStep_ok_cases (st : ScanState) (p : String × StandaloneRule)
    (st2 : ScanState) (h : standaloneStep st p = .ok st2) :
    (fires st.record p.1 p.2 = false ∧ st2 = st) ∨
    (∃ s f, alGet st.record p.1 = some (.vstr s) ∧ p.2.pattern s = true ∧
      getRedactor p.2.redactor = some f ∧
      st2 = { st with score := st.score + p.2.base_score,
                      log := st.log ++ [soloMsg p.1],
                      safe := alSet st.safe p.1 (.vstr (f (.vstr s))) }) := by
  rcases Bool.eq_false_or_eq_true (fires st.record p.1 p.2) with hf | hf
  · rcases (fires_iff_exists _ _ _).mp hf with ⟨s, hv, hp⟩
    cases hr : getRedactor p.2.redactor with
    | none =>
      rw [standaloneStep_fire_err st p s hv hp hr] at h
      exact absurd h (by simp)
    | some f =>
      rw [standaloneStep_fire_eq st p s f hv hp hr] at h
      simp only [Except.ok.injEq] at h
      exact Or.inr ⟨s, f, hv, hp, rfl, h.symm⟩
  · rw [standaloneStep_nofire st p hf] at h
    simp only [Except.ok.injEq] at h
    exact Or.inl ⟨hf, h.symm⟩

theorem standalonePass_frame (rules : List (String × StandaloneRule)) :
    ∀ st st2, standalonePass rules st = .ok st2 →
      st2.cfg = st.cfg ∧ st2.record = st.record ∧
      st2.score = st.score + standaloneScore st.record rules ∧
      st2.log = st.log ++
        ((rules.filter (fun p => fires st.record p.1 p.2)).map (fun p => soloMsg p.1)) := by
  induction rules with
  | nil =>
    intro st st2 h
    unfold standalonePass at h
    simp only [Except.ok.injEq] at h
    subst h
    simp [standaloneScore]
  | cons p rest ih =>
    intro st st2 h
    unfold standalonePass at h
    cases hs : standaloneStep st p with
    | error e => rw [hs] at h; exact absurd h (by simp)
    | ok stm =>
      rw [hs] at h
      simp only [] at h
      rcases standaloneStep_ok_cases st p stm hs with ⟨hf, hst⟩ | ⟨s, f, hv, hp, hr, hst⟩
      · rw [hst] at h
        rcases ih st st2 h with ⟨h1, h2, h3, h4⟩
        refine ⟨h1, h2, ?_, ?_⟩
        · rw [h3]
          simp [standaloneScore, hf]
        · rw [h4]
          simp [hf]
      · have hfire : fires st.record p.1 p.2 = true :=
          (fires_iff_exists _ _ _).mpr ⟨s, hv, hp⟩
        rcases ih stm st2 h with ⟨h1, h2, h3, h4⟩
        rw [hst] at h1 h2 h3 h4
        simp only [] at h1 h2 h3 h4
        refine ⟨h1, h2, ?_, ?_⟩
        · rw [h3]
          simp only [standaloneScore, List.map_cons, List.sum_cons, hfire, if_true]
          ring
        · rw [h4]
          simp only [List.filter_cons, hfire, if_true, List.map_cons]
          simp

theorem standalonePass_get_notkey (rules : List (String × StandaloneRule)) :
    ∀ st st2 k, standalonePass rules st = .ok st2 →
      (∀ p ∈ rules, p.1 ≠ k) →
      alGet st2.safe k = alGet st.safe k := by
  induction rules with
  | nil =>
    intro st st2 k h _
    unfold standalonePass at h
    simp only [Except.ok.injEq] at h
    rw [← h]
  | cons p rest ih =>
    intro st st2 k h hk
    unfold standalonePass at h
    cases hs : standaloneStep st p with
    | error e => rw [hs] at h; exact absurd h (by simp)
    | ok stm =>
      rw [hs] at h
      simp only [] at h
      have hrest : ∀ q ∈ rest, q.1 ≠ k := fun q hq => hk q (List.mem_cons_of_mem p hq)
      rcases standaloneStep_ok_cases st p stm hs with ⟨hf, hst⟩ | ⟨s, f, hv, hp, hr, hst⟩
      · rw [hst] at h
        exact ih st st2 k h hrest
      · have h2 := ih stm st2 k h hrest
        rw [hst] at h2
        simp only [] at h2
        rw [h2]
        exact alGet_alSet_ne st.safe p.1 k _ (hk p (List.mem_cons_self p rest))

theorem standalonePass_get_nofire (rules : List (String × StandaloneRule)) :
    ∀ st st2 k, standalonePass rules st = .ok st2 →
      (∀ p ∈ rules, p.1 = k → fires st.record p.1 p.2 = false) →
      alGet st2.safe k = alGet st.safe k := by
  induction rules with
  | nil =>
    intro st st2 k h _
    unfold standalonePass at h
    simp only [Except.ok.injEq] at h
    rw [← h]
  | cons p rest ih =>
    intro st st2 k h hk
    unfold standalonePass at h
    cases hs : standaloneStep st p with
    | error e => rw [hs] at h; exact absurd h (by simp)
    | ok stm =>
      rw [hs] at h
      simp only [] at h
      rcases standaloneStep_ok_cases st p stm hs with ⟨hf, hst⟩ | ⟨s, f, hv, hp, hr, hst⟩
      · rw [hst] at h
        exact ih st st2 k h (fun q hq => hk q (List.mem_cons_of_mem p hq))
      · have hfire : fires st.record p.1 p.2 = true :=
          (fires_iff_exists _ _ _).mpr ⟨s, hv, hp⟩
        have hpk : p.1 ≠ k := by
          intro heq
          rw [hk p (List.mem_cons_self p rest) heq] at hfire
          exact Bool.false_ne_true hfire
        have h2 := ih stm st2 k h (by
          rw [hst]
          intro q hq hqk
          exact hk q (List.mem_cons_of_mem p hq) hqk)
        rw [hst] at h2
        simp only [] at h2
        rw [h2]
        exact alGet_alSet_ne st.safe p.1 k _ hpk

theorem standalonePass_get_fire (rules : List (String × StandaloneRule)) :
    ∀ st st2, standalonePass rules st = .ok st2 →
      (rules.map Prod.fst).Nodup →
      ∀ p ∈ rules, fires st.record p.1 p.2 = true →
        ∃ s f, alGet st.record p.1 = some (.vstr s) ∧ p.2.pattern s = true ∧
          getRedactor p.2.redactor = some f ∧
          alGet st2.safe p.1 = some (.vstr (f (.vstr s))) := by
  induction rules with
  | nil =>
    intro st st2 _ _ p hp
    exact absurd hp (List.not_mem_nil p)
  | cons q rest ih =>
    intro st st2 h hnd p hp hfire
    unfold standalonePass at h
    cases hs : standaloneStep st q with
    | error e => rw [hs] at h; exact absurd h (by simp)
    | ok stm =>
      rw [hs] at h
      simp only [] at h
      have hnd2 : (rest.map Prod.fst).Nodup := (List.nodup_cons.mp hnd).2
      have hq1 : q.1 ∉ rest.map Prod.fst := (List.nodup_cons.mp hnd).1
      rcases List.mem_cons.mp hp with rfl | hpr
      · rcases standaloneStep_ok_cases st p stm hs with ⟨hf, hst⟩ | ⟨s, f, hv, hp2, hr, hst⟩
        · rw [hf] at hfire; exact absurd hfire Bool.false_ne_true
        · refine ⟨s, f, hv, hp2, hr, ?_⟩
          have hrest : ∀ q2 ∈ rest, q2.1 ≠ p.1 := by
            intro q2 hq2 heq
            exact hq1 (heq ▸ List.mem_map_of_mem Prod.fst hq2)
          have h3 := standalonePass_get_notkey rest stm st2 p.1 h hrest
          rw [hst] at h3
          simp only [] at h3
          rw [h3]
          exact alGet_alSet_self st.safe p.1 _
      · rcases standaloneStep_ok_cases st q stm hs with ⟨hf, hst⟩ | ⟨s, f, hv, hp2, hr, hst⟩
        · rw [hst] at h
          exact ih st st2 h hnd2 p hpr hfire
        · have h4 := ih stm st2 h hnd2 p (by exact hpr) (by rw [hst]; simpa using hfire)
          rw [hst] at h4
          simpa using h4

theorem standalonePass_keys (rules : List (String × StandaloneRule)) :
    ∀ st st2, standalonePass rules st = .ok st2 →
      alKeys st.safe = alKeys st.record →
      alKeys st2.safe = alKeys st.record := by
  induction rules with
  | nil =>
    intro st st2 h hk
    unfold standalonePass at h
    simp only [Except.ok.injEq] at h
    rw [← h]
    exact hk
  | cons p rest ih =>
    intro st st2 h hk
    unfold standalonePass at h
    cases hs : standaloneStep st p with
    | error e => rw [hs] at h; exact absurd h (by simp)
    | ok stm =>
      rw [hs] at h
      simp only [] at h
      rcases standaloneStep_ok_cases st p stm hs with ⟨hf, hst⟩ | ⟨s, f, hv, hp, hr, hst⟩
      · rw [hst] at h
        exact ih st st2 h hk
      · have hmem : (alGet st.safe p.1).isSome = true := by
          rw [alGet_isSome_iff_mem, hk, ← alGet_isSome_iff_mem, hv]
          rfl
        have hkeys : alKeys (alSet st.safe p.1 (.vstr (f (.vstr s)))) = alKeys st.safe :=
          alKeys_alSet_of_mem st.safe p.1 _ hmem
        have h2 := ih stm st2 h
        rw [hst] at h2
        simp only [] at h2
        rw [hkeys, hk] at h2
        exact h2 rfl

theorem standalonePass_total (rules : List (String × StandaloneRule)) :
    ∀ st, (∀ p ∈ rules, (getRedactor p.2.redactor).isSome = true) →
      ∃ st2, standalonePass rules st = .ok st2 := by
  induction rules with
  | nil =>
    intro st _
    exact ⟨st, rfl⟩
  | cons p rest ih =>
    intro st hval
    have hrest : ∀ q ∈ rest, (getRedactor q.2.redactor).isSome = true :=
      fun q hq => hval q (List.mem_cons_of_mem p hq)
    rcases Bool.eq_false_or_eq_true (fires st.record p.1 p.2) with hf | hf
    · rcases (fires_iff_exists _ _ _).mp hf with ⟨s, hv, hp⟩
      cases hr : getRedactor p.2.redactor with
      | none =>
        have := hval p (List.mem_cons_self p rest)
        rw [hr] at this
        exact absurd this (by simp)
      | some f =>
        rcases ih _ hrest with ⟨st2, h2⟩
        refine ⟨st2, ?_⟩
        unfold standalonePass
        rw [standaloneStep_fire_eq st p s f hv hp hr]
        exact h2
    · rcases ih st hrest with ⟨st2, h2⟩
      refine ⟨st2, ?_⟩
      unfold standalonePass
      rw [standaloneStep_nofire st p hf]
      exact h2

theorem standalonePass_nofires (rules : List (String × StandaloneRule)) :
    ∀ st, (∀ p ∈ rules, fires st.record p.1 p.2 = false) →
      standalonePass rules st = .ok st := by
  induction rules with
  | nil => intro st _; rfl
  | cons p rest ih =>
    intro st hf
    unfold standalonePass
    rw [standaloneStep_nofire st p (hf p (List.mem_cons_self p rest))]
    exact ih st (fun q hq => hf q (List.mem_cons_of_mem p hq))

theorem comboKeysAux_cons (r : Dict) (p : String × ComboRule)
    (rest : List (String × ComboRule)) (ks : List String) :
    comboKeysAux r (p :: rest) ks =
      comboKeysAux r rest
        (if 2 ≤ (presentKeys r p.2).length then dedupAppend ks (presentKeys r p.2)
         else ks) := rfl

theorem comboPass_spec (rules : List (String × ComboRule)) :
    ∀ st ks,
      (comboPass rules st ks).1.cfg = st.cfg ∧
      (comboPass rules st ks).1.record = st.record ∧
      (comboPass rules st ks).1.safe = st.safe ∧
      (comboPass rules st ks).1.score = st.score + comboScorePure st.record rules ∧
      (comboPass rules st ks).1.log = st.log ++
        ((rules.filter (fun p => decide (2 ≤ (presentKeys st.record p.2).length))).map
          (fun p => comboMsg (presentKeys st.record p.2))) ∧
      (comboPass rules st ks).2 = comboKeysAux st.record rules ks := by
  induction rules with
  | nil =>
    intro st ks
    simp [comboPass, comboScorePure, comboKeysAux]
  | cons p rest ih =>
    intro st ks
    rw [comboKeysAux_cons]
    unfold comboPass
    by_cases hn : 2 ≤ (presentKeys st.record p.2).length
    · simp only [hn, if_true]
      rcases ih { st with
          score := st.score + p.2.base_score * ((presentKeys st.record p.2).length : ℚ),
          log := st.log ++ [comboMsg (presentKeys st.record p.2)] }
        (dedupAppend ks (presentKeys st.record p.2)) with ⟨h1, h2, h3, h4, h5, h6⟩
      simp only [] at h1 h2 h3 h4 h5 h6
      refine ⟨h1, h2, h3, ?_, ?_, h6⟩
      · rw [h4]
        simp only [comboScorePure, List.map_cons, List.sum_cons, hn, if_true]
        ring
      · rw [h5]
        simp only [List.filter_cons, hn, decide_true_eq_true, List.map_cons]
        simp
    · simp only [hn, if_false]
      rcases ih st ks with ⟨h1, h2, h3, h4, h5, h6⟩
      refine ⟨h1, h2, h3, ?_, ?_, h6⟩
      · rw [h4]
        simp [comboScorePure, hn]
      · rw [h5]
        simp [List.filter_cons, hn]

theorem comboKeysAux_nodup (r : Dict) (rules : List (String × ComboRule)) :
    ∀ ks, ks.Nodup → (comboKeysAux r rules ks).Nodup := by
  induction rules with
  | nil => intro ks h; exact h
  | cons p rest ih =>
    intro ks h
    rw [comboKeysAux_cons]
    by_cases hn : 2 ≤ (presentKeys r p.2).length
    · rw [if_pos hn]
      exact ih _ (dedupAppend_nodup _ ks h)
    · rw [if_neg hn]
      exact ih ks h

theorem comboKeysAux_mem (r : Dict) (rules : List (String × ComboRule)) :
    ∀ ks k, k ∈ comboKeysAux r rules ks ↔
      k ∈ ks ∨ ∃ p ∈ rules, 2 ≤ (presentKeys r p.2).length ∧ k ∈ presentKeys r p.2 := by
  induction rules with
  | nil => intro ks k; simp [comboKeysAux]
  | cons p rest ih =>
    intro ks k
    rw [comboKeysAux_cons]
    by_cases hn : 2 ≤ (presentKeys r p.2).length
    · rw [if_pos hn, ih]
      rw [dedupAppend_mem]
      simp only [List.mem_cons]
      constructor
      · rintro ((h | h) | ⟨q, hq, hq2⟩)
        · exact Or.inl h
        · exact Or.inr ⟨p, Or.inl rfl, hn, h⟩
        · exact Or.inr ⟨q, Or.inr hq, hq2⟩
      · rintro (h | ⟨q, (rfl | hq), hq2⟩)
        · exact Or.inl (Or.inl h)
        · exact Or.inl (Or.inr hq2.2)
        · exact Or.inr ⟨q, hq, hq2⟩
    · rw [if_neg hn, ih]
      constructor
      · rintro (h | ⟨q, hq, hq2⟩)
        · exact Or.inl h
        · exact Or.inr ⟨q, List.mem_cons_of_mem p hq, hq2⟩
      · rintro (h | ⟨q, hq, hq2⟩)
        · exact Or.inl h
        · rcases List.mem_cons.mp hq with rfl | hq3
          · exact absurd hq2.1 hn
          · exact Or.inr ⟨q, hq3, hq2⟩

theorem mem_presentKeys_isSome (r : Dict) (rule : ComboRule) (k : String)
    (h : k ∈ presentKeys r rule) : (alGet r k).isSome = true := by
  unfold presentKeys at h
  have := List.of_mem_filter h
  simpa [alMem] using this

theorem comboKeysPure_isSome (r : Dict) (rules : List (String × ComboRule))
    (k : String) (h : k ∈ comboKeysPure r rules) : (alGet r k).isSome = true := by
  rw [comboKeysPure_eq_aux, comboKeysAux_mem] at h
  rcases h with h | ⟨q, _, _, hq3⟩
  · exact absurd h (List.not_mem_nil k)
  · exact mem_presentKeys_isSome r q.2 k hq3

theorem redactStep_ok_spec (st : ScanState) (k : String) (st2 : ScanState)
    (h : redactStep st k = .ok st2) :
    st2.cfg = st.cfg ∧ st2.record = st.record ∧ st2.score = st.score ∧
    st2.log = st.log ∧
    alGet st2.safe k = redactSpec st.cfg st.record (alGet st.safe k) k ∧
    (∀ k2, k2 ≠ k → alGet st2.safe k2 = alGet st.safe k2) := by
  unfold redactStep at h
  cases hm : alGet st.cfg.redaction_placeholders k with
  | none =>
    rw [hm] at h
    simp only [Except.ok.injEq] at h
    rw [← h]
    exact ⟨rfl, rfl, rfl, rfl, by simp [redactSpec, hm], fun _ _ => rfl⟩
  | some m =>
    rw [hm] at h
    simp only [] at h
    cases hr : getRedactor m with
    | some f =>
      rw [hr] at h
      simp only [] at h
      cases hv : alGet st.record k with
      | none => rw [hv] at h; exact absurd h (by simp)
      | some v =>
        rw [hv] at h
        simp only [Except.ok.injEq] at h
        rw [← h]
        refine ⟨rfl, rfl, rfl, rfl, ?_, ?_⟩
        · simp only [redactSpec, hm, hr, hv, Option.map_some]
          exact alGet_alSet_self st.safe k _
        · intro k2 hk2
          exact alGet_alSet_ne st.safe k k2 _ (fun he => hk2 he.symm)
    | none =>
      rw [hr] at h
      simp only [] at h
      by_cases hme : m = ""
      · rw [if_pos hme] at h
        simp only [Except.ok.injEq] at h
        rw [← h]
        refine ⟨rfl, rfl, rfl, rfl, ?_, fun _ _ => rfl⟩
        simp only [redactSpec, hm, hr]
        rw [if_pos hme]
      · rw [if_neg hme] at h
        simp only [Except.ok.injEq] at h
        rw [← h]
        refine ⟨rfl, rfl, rfl, rfl, ?_, ?_⟩
        · simp only [redactSpec, hm, hr, if_neg hme]
          exact alGet_alSet_self st.safe k _
        · intro k2 hk2
          exact alGet_alSet_ne st.safe k k2 _ (fun he => hk2 he.symm)

theorem redactStep_keys (st : ScanState) (k : String) (st2 : ScanState)
    (h : redactStep st k = .ok st2) (hk : (alGet st.safe k).isSome = true) :
    alKeys st2.safe = alKeys st.safe := by
  unfold redactStep at h
  cases hm : alGet st.cfg.redaction_placeholders k with
  | none =>
    rw [hm] at h
    simp only [Except.ok.injEq] at h
    rw [← h]
  | some m =>
    rw [hm] at h
    simp only [] at h
    cases hr : getRedactor m with
    | some f =>
      rw [hr] at h
      simp only [] at h
      cases hv : alGet st.record k with
      | none => rw [hv] at h; exact absurd h (by simp)
      | some v =>
        rw [hv] at h
        simp only [Except.ok.injEq] at h
        rw [← h]
        exact alKeys_alSet_of_mem st.safe k _ hk
    | none =>
      rw [hr] at h
      simp only [] at h
      by_cases hme : m = ""
      · rw [if_pos hme] at h
        simp only [Except.ok.injEq] at h
        rw [← h]
      · rw [if_neg hme] at h
        simp only [Except.ok.injEq] at h
        rw [← h]
        exact alKeys_alSet_of_mem st.safe k _ hk

theorem redactStep_total (st : ScanState) (k : String)
    (hk : (alGet st.record k).isSome = true) :
    ∃ st2, redactStep st k = .ok st2 := by
  unfold redactStep
  cases hm : alGet st.cfg.redaction_placeholders k with
  | none => exact ⟨st, rfl⟩
  | some m =>
    simp only []
    cases hr : getRedactor m with
    | some f =>
      simp only []
      cases hv : alGet st.record k with
      | none => rw [hv] at hk; exact absurd hk (by simp)
      | some v => exact ⟨_, rfl⟩
    | none =>
      simp only []
      by_cases hme : m = ""
      · exact ⟨st, by rw [if_pos hme]⟩
      · exact ⟨_, by rw [if_neg hme]⟩

theorem redactPass_frame (ks : List String) :
    ∀ st st2, redactPass ks st = .ok st2 →
      st2.cfg = st.cfg ∧ st2.record = st.record ∧ st2.score = st.score ∧
      st2.log = st.log := by
  induction ks with
  | nil =>
    intro st st2 h
    unfold redactPass at h
    simp only [Except.ok.injEq] at h
    rw [← h]
    exact ⟨rfl, rfl, rfl, rfl⟩
  | cons k rest ih =>
    intro st st2 h
    unfold redactPass at h
    cases hs : redactStep st k with
    | error e => rw [hs] at h; exact absurd h (by simp)
    | ok stm =>
      rw [hs] at h
      simp only [] at h
      rcases redactStep_ok_spec st k stm hs with ⟨h1, h2, h3, h4, _, _⟩
      rcases ih stm st2 h with ⟨g1, g2, g3, g4⟩
      exact ⟨g1.trans h1, g2.trans h2, g3.trans h3, g4.trans h4⟩

theorem redactPass_get_notin (ks : List String) :
    ∀ st st2 k, redactPass ks st = .ok st2 → k ∉ ks →
      alGet st2.safe k = alGet st.safe k := by
  induction ks with
  | nil =>
    intro st st2 k h _
    unfold redactPass at h
    simp only [Except.ok.injEq] at h
    rw [← h]
  | cons k0 rest ih =>
    intro st st2 k h hk
    unfold redactPass at h
    cases hs : redactStep st k0 with
    | error e => rw [hs] at h; exact absurd h (by simp)
    | ok stm =>
      rw [hs] at h
      simp only [] at h
      have hk0 : k ≠ k0 := fun he => hk (he ▸ List.mem_cons_self k0 rest)
      have hkr : k ∉ rest := fun he => hk (List.mem_cons_of_mem k0 he)
      rcases redactStep_ok_spec st k0 stm hs with ⟨_, _, _, _, _, h6⟩
      rw [ih stm st2 k h hkr]
      exact h6 k hk0

theorem redactPass_get_in (ks : List String) :
    ∀ st st2 k, redactPass ks st = .ok st2 → ks.Nodup → k ∈ ks →
      alGet st2.safe k = redactSpec st.cfg st.record (alGet st.safe k) k := by
  induction ks with
  | nil =>
    intro st st2 k _ _ hk
    exact absurd hk (List.not_mem_nil k)
  | cons k0 rest ih =>
    intro st st2 k h hnd hk
    unfold redactPass at h
    cases hs : redactStep st k0 with
    | error e => rw [hs] at h; exact absurd h (by simp)
    | ok stm =>
      rw [hs] at h
      simp only [] at h
      rcases redactStep_ok_spec st k0 stm hs with ⟨h1, h2, _, _, h5, h6⟩
      rcases List.mem_cons.mp hk with rfl | hkr
      · have hnotin : k ∉ rest := (List.nodup_cons.mp hnd).1
        rw [redactPass_get_notin rest stm st2 k h hnotin]
        exact h5
      · have hkk0 : k ≠ k0 := by
          intro he
          exact (List.nodup_cons.mp hnd).1 (he ▸ hkr)
        rw [ih stm st2 k h (List.nodup_cons.mp hnd).2 hkr, h1, h2, h6 k hkk0]

theorem redactPass_keys (ks : List String) :
    ∀ st st2, redactPass ks st = .ok st2 →
      (∀ k ∈ ks, (alGet st.safe k).isSome = true) →
      alKeys st2.safe = alKeys st.safe := by
  induction ks with
  | nil =>
    intro st st2 h _
    unfold redactPass at h
    simp only [Except.ok.injEq] at h
    rw [← h]
  | cons k0 rest ih =>
    intro st st2 h hk
    unfold redactPass at h
    cases hs : redactStep st k0 with
    | error e => rw [hs] at h; exact absurd h (by simp)
    | ok stm =>
      rw [hs] at h
      simp only [] at h
      have hkeys := redactStep_keys st k0 stm hs (hk k0 (List.mem_cons_self k0 rest))
      have hrest : ∀ k ∈ rest, (alGet stm.safe k).isSome = true := by
        intro k hkr
        rw [alGet_isSome_iff_mem, hkeys, ← alGet_isSome_iff_mem]
        exact hk k (List.mem_cons_of_mem k0 hkr)
      rw [ih stm st2 h hrest]
      exact hkeys

theorem redactPass_total (ks : List String) :
    ∀ st, (∀ k ∈ ks, (alGet st.record k).isSome = true) →
      ∃ st2, redactPass ks st = .ok st2 := by
  induction ks with
  | nil => intro st _; exact ⟨st, rfl⟩
  | cons k0 rest ih =>
    intro st hk
    rcases redactStep_total st k0 (hk k0 (List.mem_cons_self k0 rest)) with ⟨stm, hs⟩
    rcases redactStep_ok_spec st k0 stm hs with ⟨_, h2, _, _, _, _⟩
    rcases ih stm (by
      intro k hkr
      rw [h2]
      exact hk k (List.mem_cons_of_mem k0 hkr)) with ⟨st2, h⟩
    refine ⟨st2, ?_⟩
    unfold redactPass
    rw [hs]
    exact h

theorem scanStates_decomp (cfg : Config) (r : Dict) (st3 : ScanState)
    (h : scanStates cfg r = .ok st3) :
    ∃ st1, standalonePass cfg.standalone_pii_patterns (initState cfg r) = .ok st1 ∧
      redactPass (comboPass cfg.combinatorial_pii_sets st1 []).2
        (comboPass cfg.combinatorial_pii_sets st1 []).1 = .ok st3 := by
  unfold scanStates at h
  cases hs : standalonePass cfg.standalone_pii_patterns (initState cfg r) with
  | error e => rw [hs] at h; exact absurd h (by simp)
  | ok st1 =>
    rw [hs] at h
    simp only [] at h
    exact ⟨st1, rfl, h⟩

theorem scanE_ok_inv (cfg : Config) (r : Dict) (res : ScanResult)
    (h : scanE cfg r = .ok res) :
    ∃ st, scanStates cfg r = .ok st ∧ res = finishScan st := by
  unfold scanE at h
  cases hs : scanStates cfg r with
  | error e => rw [hs] at h; exact absurd h (by simp)
  | ok st =>
    rw [hs] at h
    simp only [Except.ok.injEq] at h
    exact ⟨st, rfl, h.symm⟩

theorem scanStates_spec (cfg : Config) (r : Dict) (st3 : ScanState)
    (h : scanStates cfg r = .ok st3) :
    st3.cfg = cfg ∧ st3.record = r ∧
    st3.score = standaloneScore r cfg.standalone_pii_patterns +
      comboScorePure r cfg.combinatorial_pii_sets ∧
    alKeys st3.safe = alKeys r := by
  rcases scanStates_decomp cfg r st3 h with ⟨st1, h1, h2⟩
  rcases standalonePass_frame _ _ _ h1 with ⟨f1, f2, f3, _⟩
  simp only [initState] at f1 f2 f3
  rcases comboPass_spec cfg.combinatorial_pii_sets st1 [] with ⟨c1, c2, c3, c4, _, c6⟩
  rcases redactPass_frame _ _ _ h2 with ⟨r1, r2, r3, _⟩
  have hkeys1 : alKeys st1.safe = alKeys r := by
    have := standalonePass_keys _ _ _ h1 (by simp [initState])
    simpa [initState] using this
  have hks : (comboPass cfg.combinatorial_pii_sets st1 []).2 =
      comboKeysPure r cfg.combinatorial_pii_sets := by
    rw [c6, f2, comboKeysPure_eq_aux]
  refine ⟨r1.trans c1 |>.trans f1, r2.trans c2 |>.trans f2, ?_, ?_⟩
  · rw [r3, c4, f3, f2, zero_add]
  · have hsafe2 : ∀ k ∈ (comboPass cfg.combinatorial_pii_sets st1 []).2,
        (alGet (comboPass cfg.combinatorial_pii_sets st1 []).1.safe k).isSome = true := by
      intro k hk
      rw [hks] at hk
      have := comboKeysPure_isSome r _ k hk
      rw [c3, alGet_isSome_iff_mem, hkeys1, ← alGet_isSome_iff_mem]
      exact this
    have := redactPass_keys _ _ _ h2 hsafe2
    rw [this, c3, hkeys1]

theorem scanStates_get (cfg : Config) (r : Dict) (st3 : ScanState) (k : String)
    (h : scanStates cfg r = .ok st3)
    (hnofire : ∀ p ∈ cfg.standalone_pii_patterns, p.1 = k → fires r p.1 p.2 = false)
    (hnotin : k ∉ comboKeysPure r cfg.combinatorial_pii_sets) :
    alGet st3.safe k = alGet r k := by
  rcases scanStates_decomp cfg r st3 h with ⟨st1, h1, h2⟩
  rcases standalonePass_frame _ _ _ h1 with ⟨_, f2, _, _⟩
  simp only [initState] at f2
  rcases comboPass_spec cfg.combinatorial_pii_sets st1 [] with ⟨_, c2, c3, _, _, c6⟩
  have hks : (comboPass cfg.combinatorial_pii_sets st1 []).2 =
      comboKeysPure r cfg.combinatorial_pii_sets := by
    rw [c6, f2, comboKeysPure_eq_aux]
  have hg1 : alGet st1.safe k = alGet r k := by
    have := standalonePass_get_nofire _ _ _ k h1 (by
      intro p hp hpk
      simp only [initState]
      exact hnofire p hp hpk)
    simpa [initState] using this
  have hg3 := redactPass_get_notin _ _ _ k h2 (by rw [hks]; exact hnotin)
  rw [hg3, c3, hg1]

theorem scanStates_total (cfg : Config) (r : Dict) (hval : ValidConfig cfg) :
    ∃ st3, scanStates cfg r = .ok st3 := by
  rcases standalonePass_total cfg.standalone_pii_patterns (initState cfg r) hval
    with ⟨st1, h1⟩
  rcases standalonePass_frame _ _ _ h1 with ⟨_, f2, _, _⟩
  simp only [initState] at f2
  rcases comboPass_spec cfg.combinatorial_pii_sets st1 [] with ⟨_, c2, _, _, _, c6⟩
  have hks : (comboPass cfg.combinatorial_pii_sets st1 []).2 =
      comboKeysPure r cfg.combinatorial_pii_sets := by
    rw [c6, f2, comboKeysPure_eq_aux]
  rcases redactPass_total (comboPass cfg.combinatorial_pii_sets st1 []).2
    (comboPass cfg.combinatorial_pii_sets st1 []).1 (by
      intro k hk
      rw [hks] at hk
      rw [c2, f2]
      exact comboKeysPure_isSome r _ k hk) with ⟨st3, h3⟩
  refine ⟨st3, ?_⟩
  unfold scanStates
  rw [h1]
  exact h3

theorem standaloneScore_nonneg (r : Dict) (rules : List (String × StandaloneRule))
    (h : ∀ p ∈ rules, 0 ≤ p.2.base_score) : 0 ≤ standaloneScore r rules := by
  unfold standaloneScore
  apply List.sum_nonneg
  intro x hx
  rcases List.mem_map.mp hx with ⟨p, hp, rfl⟩
  by_cases hf : fires r p.1 p.2
  · simpa [hf] using h p hp
  · simp [hf]

theorem comboScorePure_nonneg (r : Dict) (rules : List (String × ComboRule))
    (h : ∀ p ∈ rules, 0 ≤ p.2.base_score) : 0 ≤ comboScorePure r rules := by
  unfold comboScorePure
  apply List.sum_nonneg
  intro x hx
  rcases List.mem_map.mp hx with ⟨p, hp, rfl⟩
  simp only []
  by_cases hn : 2 ≤ (presentKeys r p.2).length
  · rw [if_pos hn]
    exact mul_nonneg (h p hp) (by positivity)
  · rw [if_neg hn]

/-- C6: `mask_string` returns exactly `"****"` for any non-textual value
and for any string of fewer than 5 characters, and for a string of length
`n ≥ 5` returns the first 2 characters, `n - 4` copies of `X`, and the
last 2 characters, preserving the total length; in particular
`mask_string("password123") = "paXXXXXXX23"`. -/
theorem mask_string_spec :
    (∀ r, mask_string (.vother r) = "****") ∧
    (∀ s : String, s.length < 5 → mask_string (.vstr s) = "****") ∧
    (∀ s : String, 5 ≤ s.length →
      mask_string (.vstr s) =
        String.mk (s.data.take 2 ++ List.replicate (s.length - 4) 'X' ++
          s.data.drop (s.length - 2)) ∧
      (mask_string (.vstr s)).length = s.length) ∧
    mask_string (.vstr "password123") = "paXXXXXXX23" := by
  refine ⟨fun r => rfl, ?_, ?_, by decide⟩
  · intro s h
    have h2 : s.data.length < 5 := h
    unfold mask_string maskStrS maskChars
    simp only []
    rw [if_pos h2]
  · intro s h
    have h2 : ¬ s.data.length < 5 := not_lt.mpr h
    unfold mask_string maskStrS maskChars
    simp only []
    rw [if_neg h2]
    refine ⟨rfl, ?_⟩
    show (s.data.take 2 ++ List.replicate (s.data.length - 4) 'X' ++
      s.data.drop (s.data.length - 2)).length = s.data.length
    simp only [List.length_append, List.length_take, List.length_replicate,
      List.length_drop]
    have h2 : 5 ≤ s.data.length := h
    omega

/-- C6 witness: the general clause of `mask_string_spec` evaluated at
`"password123"`. -/
theorem mask_string_spec_witness :
    mask_string (.vstr "password123") =
      String.mk ("password123".data.take 2 ++
        List.replicate ("password123".length - 4) 'X' ++
        "password123".data.drop ("password123".length - 2)) ∧
    (mask_string (.vstr "password123")).length = "password123".length :=
  mask_string_spec.2.2.1 "password123" (by decide)

theorem splitFirst_sound (l : List Char) :
    ∀ u d, splitFirst l = some (u, d) → l = u ++ '@' :: d ∧ '@' ∉ u := by
  induction l with
  | nil => intro u d h; exact absurd h (by simp [splitFirst])
  | cons c cs ih =>
    intro u d h
    unfold splitFirst at h
    by_cases hc : c = '@'
    · rw [if_pos hc] at h
      simp only [Option.some.injEq, Prod.mk.injEq] at h
      rcases h with ⟨h1, h2⟩
      subst h1
      subst h2
      subst hc
      exact ⟨rfl, List.not_mem_nil _⟩
    · rw [if_neg hc] at h
      cases hs : splitFirst cs with
      | none => rw [hs] at h; exact absurd h (by simp)
      | some p =>
        obtain ⟨u2, d2⟩ := p
        rw [hs] at h
        simp only [Option.some.injEq, Prod.mk.injEq] at h
        rcases h with ⟨h1, h2⟩
        rcases ih u2 d2 hs with ⟨ih1, ih2⟩
        constructor
        · rw [← h1, ← h2, List.cons_append, ← ih1]
        · rw [← h1]
          intro hmem
          rcases List.mem_cons.mp hmem with he | he
          · exact hc he.symm
          · exact ih2 he

/-- C5 counterexample: the code masks the local part `"jane.doe"` to
`"jaXXXXoe"` (first 2, four `X`, last 2), not to the `"jaXXXXXe"` the
claim states. -/
theorem mask_email_example_counterexample :
    mask_email (.vstr "jane.doe@example.com") = "jaXXXXoe@example.com" ∧
    ("jaXXXXoe@example.com" : String) ≠ "jaXXXXXe@example.com" := by
  exact ⟨by decide, by decide⟩

/-- C5 (amended): `mask_email` splits its input on the first `@`; when
the split succeeds it returns the local part masked by the string masking
rule with the domain unmasked, and when there is no `@` or the value is
not textual it masks the value's string form; in particular
`mask_email("jane.doe@example.com") = "jaXXXXoe@example.com"`. -/
theorem mask_email_spec :
    (∀ (s : String) (u d : List Char), splitFirst s.data = some (u, d) →
      s.data = u ++ '@' :: d ∧ '@' ∉ u ∧
      mask_email (.vstr s) = maskStrS (String.mk u) ++ "@" ++ String.mk d) ∧
    (∀ s : String, splitFirst s.data = none → mask_email (.vstr s) = maskStrS s) ∧
    (∀ r : String, mask_email (.vother r) = maskStrS r) ∧
    mask_email (.vstr "jane.doe@example.com") = "jaXXXXoe@example.com" := by
  refine ⟨?_, ?_, fun r => rfl, by decide⟩
  · intro s u d h
    rcases splitFirst_sound s.data u d h with ⟨h1, h2⟩
    refine ⟨h1, h2, ?_⟩
    unfold mask_email
    simp only []
    rw [h]
  · intro s h
    unfold mask_email
    simp only []
    rw [h]

/-- C5 witness: the split clause of `mask_email_spec` evaluated at
`"ab@cd.e"`. -/
theorem mask_email_spec_witness :
    "ab@cd.e".data = ['a', 'b'] ++ '@' :: "cd.e".data ∧
    '@' ∉ ['a', 'b'] ∧
    mask_email (.vstr "ab@cd.e") =
      maskStrS (String.mk ['a', 'b']) ++ "@" ++ String.mk "cd.e".data :=
  mask_email_spec.1 "ab@cd.e" ['a', 'b'] "cd.e".data (by decide)

/-- Catalog with a single always-matching standalone rule whose
base_score is 0.504. -/
def cfgC1 : Config :=
  { standalone_pii_patterns := [("x", ⟨fun _ => true, mkRat 504 1000, "mask_string"⟩)],
    combinatorial_pii_sets := [],
    redaction_placeholders := [] }

def recC1 : Dict := [("x", .vstr "hello")]

def resC1 : ScanResult :=
  { safe_rec := [("x", .vstr "heXlo")], is_pii := true,
    confidence := mkRat 1 2, reason := "found solo pii [x]" }

/-- C1 counterexample: with base_score 0.504 the verdict `is_pii` is
computed from the unrounded score (0.504 > 0.5, so true) while the
returned confidence is the rounded 0.5, which does not strictly exceed
0.5 — so the claimed iff between the verdict and the returned confidence
fails. -/
theorem scan_verdict_rounded_counterexample :
    scanE cfgC1 recC1 = .ok resC1 ∧ resC1.is_pii = true ∧
    ¬(mkRat 1 2 < resC1.confidence) := by
  refine ⟨?_, rfl, by decide⟩
  simp [scanE, scanStates, standalonePass, standaloneStep, comboPass, redactPass,
        finishScan, initState, alGet, alSet, fires, getRedactor, cfgC1, recC1, resC1,
        mask_string, maskStrS, maskChars, pymin, round2, rhe, soloMsg]
  norm_num [Rat.mkRat_eq_div]
  constructor
  · norm_num [Int.fract]
  · decide

/-- C1 (amended): for non-negative base scores, `scan` returns as
confidence `min(1.0, score)` rounded to 2 decimal places, that value lies
in `[0, 1]`, and the verdict `is_pii` is true iff the UNROUNDED clamped
score `min(1.0, score)` strictly exceeds 0.5 (the verdict is decided
before rounding, so it can disagree with the returned confidence). -/
theorem scan_confidence_bounds (cfg : Config) (r : Dict) (res : ScanResult)
    (h1 : ∀ p ∈ cfg.standalone_pii_patterns, 0 ≤ p.2.base_score)
    (h2 : ∀ p ∈ cfg.combinatorial_pii_sets, 0 ≤ p.2.base_score)
    (hok : scanE cfg r = .ok res) :
    ∃ st, scanStates cfg r = .ok st ∧
      res.confidence = round2 (pymin 1 st.score) ∧
      0 ≤ res.confidence ∧ res.confidence ≤ 1 ∧
      (res.is_pii = true ↔ mkRat 1 2 < pymin 1 st.score) := by
  rcases scanE_ok_inv cfg r res hok with ⟨st, hs, hres⟩
  rcases scanStates_spec cfg r st hs with ⟨_, _, hscore, _⟩
  have hnn : 0 ≤ st.score := by
    rw [hscore]
    exact add_nonneg (standaloneScore_nonneg r _ h1) (comboScorePure_nonneg r _ h2)
  have hmin0 : 0 ≤ pymin 1 st.score := by
    rw [pymin_eq_min]
    exact le_min (by norm_num) hnn
  have hmin1 : pymin 1 st.score ≤ 1 := by
    rw [pymin_eq_min]
    exact min_le_left 1 st.score
  refine ⟨st, hs, ?_, ?_, ?_, ?_⟩
  · rw [hres]; rfl
  · rw [hres]
    show 0 ≤ round2 (pymin 1 st.score)
    have := round2_mono hmin0
    rwa [round2_zero] at this
  · rw [hres]
    show round2 (pymin 1 st.score) ≤ 1
    have := round2_mono hmin1
    rwa [round2_one] at this
  · rw [hres]
    show decide (mkRat 1 2 < pymin 1 st.score) = true ↔ mkRat 1 2 < pymin 1 st.score
    exact decide_eq_true_iff

/-- C1 witness: the amended claim evaluated on the 0.504 catalog. -/
theorem scan_confidence_bounds_witness :
    0 ≤ resC1.confidence ∧ resC1.confidence ≤ 1 := by
  rcases scan_confidence_bounds cfgC1 recC1 resC1
    (by intro p hp
        simp only [cfgC1, List.mem_singleton] at hp
        subst hp
        decide)
    (by intro p hp
        simp only [cfgC1] at hp
        exact absurd hp (List.not_mem_nil p))
    (by simp [scanE, scanStates, standalonePass, standaloneStep, comboPass,
          redactPass, finishScan, initState, alGet, alSet, fires, getRedactor,
          cfgC1, recC1, resC1, mask_string, maskStrS, maskChars, pymin, round2,
          rhe, soloMsg]
        norm_num [Rat.mkRat_eq_div]
        constructor
        · norm_num [Int.fract]
        · decide) with ⟨st, _, _, h3, h4, _⟩
  exact ⟨h3, h4⟩

/-- C2: a standalone rule fires iff its field is present with a string
value that full-matches the rule's pattern (the pattern predicate is the
compiled expression's `fullmatch`); the pass adds exactly the base scores
of the firing rules, logs exactly the firing fields in order, replaces a
firing field in the sanitized copy with its configured redactor's output
applied to the original value, and leaves a non-firing rule's field
untouched. -/
theorem standalone_rule_effects (rules : List (String × StandaloneRule))
    (st st2 : ScanState) (hok : standalonePass rules st = .ok st2)
    (hnd : (rules.map Prod.fst).Nodup) :
    st2.score = st.score + standaloneScore st.record rules ∧
    st2.log = st.log ++
      ((rules.filter (fun p => fires st.record p.1 p.2)).map (fun p => soloMsg p.1)) ∧
    (∀ p ∈ rules, (fires st.record p.1 p.2 = true ↔
        ∃ s, alGet st.record p.1 = some (.vstr s) ∧ p.2.pattern s = true)) ∧
    (∀ p ∈ rules, fires st.record p.1 p.2 = true →
        ∃ s f, alGet st.record p.1 = some (.vstr s) ∧ p.2.pattern s = true ∧
          getRedactor p.2.redactor = some f ∧
          alGet st2.safe p.1 = some (.vstr (f (.vstr s)))) ∧
    (∀ p ∈ rules, fires st.record p.1 p.2 = false →
        alGet st2.safe p.1 = alGet st.safe p.1) := by
  rcases standalonePass_frame rules st st2 hok with ⟨_, _, h3, h4⟩
  refine ⟨h3, h4, fun p _ => fires_iff_exists st.record p.1 p.2,
    standalonePass_get_fire rules st st2 hok hnd, ?_⟩
  intro p hp hf
  apply standalonePass_get_nofire rules st st2 p.1 hok
  intro q hq hqk
  have hqp : q = p := by
    exact List.inj_on_of_nodup_map hnd hq hp hqk
  rw [hqp]
  exact hf

def rulesC2 : List (String × StandaloneRule) :=
  [("ssn", ⟨fun s => s == "123-45-6789", mkRat 9 10, "mask_string"⟩),
   ("note", ⟨fun s => s == "a@b.com", mkRat 1 2, "mask_email"⟩)]

def cfgC2 : Config := ⟨rulesC2, [], []⟩

def recC2 : Dict := [("ssn", .vstr "123-45-6789"), ("note", .vstr "write to a@b.com today")]

def stC2a : ScanState := initState cfgC2 recC2

def stC2b : ScanState :=
  ⟨cfgC2, recC2, [("ssn", .vstr "12XXXXXXX89"), ("note", .vstr "write to a@b.com today")],
   mkRat 9 10, ["found solo pii [ssn]"]⟩

/-- C2 witness: the score clause evaluated on a catalog where the `ssn`
rule full-matches and the `note` rule's pattern occurs only as a proper
substring of the value (so it does not fire). -/
theorem standalone_rule_effects_witness :
    stC2b.score = stC2a.score + standaloneScore stC2a.record rulesC2 :=
  (standalone_rule_effects rulesC2 stC2a stC2b
    (by simp [standalonePass, standaloneStep, rulesC2, cfgC2, recC2, stC2a, stC2b,
          initState, alGet, alSet, fires, getRedactor, mask_string, maskStrS,
          maskChars, soloMsg])
    (by decide)).1

/-- C3: the combinatorial pass adds, per rule, exactly
`base_score * (number of listed keys present)` when at least 2 are
present and nothing otherwise (`comboScorePure` is that sum, and
presence is tested with membership alone, not value type); it logs one
entry per matched rule naming the matched key combination; and the
pending-redaction set accumulated across all combinatorial rules has no
duplicates and contains exactly the keys of matched rules, so each field
is redacted at most once. -/
theorem combinatorial_rule_effects (rules : List (String × ComboRule))
    (st : ScanState) :
    (comboPass rules st []).1.score = st.score + comboScorePure st.record rules ∧
    (comboPass rules st []).1.log = st.log ++
      ((rules.filter (fun p => decide (2 ≤ (presentKeys st.record p.2).length))).map
        (fun p => comboMsg (presentKeys st.record p.2))) ∧
    (comboPass rules st []).2 = comboKeysPure st.record rules ∧
    (comboKeysPure st.record rules).Nodup ∧
    (∀ k, k ∈ comboKeysPure st.record rules ↔
      ∃ p ∈ rules, 2 ≤ (presentKeys st.record p.2).length ∧
        k ∈ presentKeys st.record p.2) := by
  rcases comboPass_spec rules st [] with ⟨_, _, _, h4, h5, h6⟩
  refine ⟨h4, h5, ?_, ?_, ?_⟩
  · rw [h6, comboKeysPure_eq_aux]
  · rw [comboKeysPure_eq_aux]
    exact comboKeysAux_nodup st.record rules [] List.nodup_nil
  · intro k
    rw [comboKeysPure_eq_aux, comboKeysAux_mem]
    simp

def cfgC4 : Config :=
  { standalone_pii_patterns := [],
    combinatorial_pii_sets := [("pair", ⟨["a", "b"], mkRat 3 10⟩)],
    redaction_placeholders := [("a", "")] }

def recC4 : Dict := [("a", .vstr "secret1"), ("b", .vstr "zz")]

def resC4 : ScanResult :=
  { safe_rec := recC4, is_pii := true, confidence := mkRat 3 5,
    reason := "found combo pii [a+b]" }

/-- C4 counterexample: field `a` is in the pending-redaction set and its
placeholder assignment is the literal `""`, yet the sanitized copy keeps
the original `"secret1"` instead of the literal: a falsy (empty)
placeholder is skipped by the `elif mask:` truthiness test. -/
theorem redaction_empty_literal_counterexample :
    scanE cfgC4 recC4 = .ok resC4 ∧
    alGet cfgC4.redaction_placeholders "a" = some "" ∧
    alGet resC4.safe_rec "a" = some (.vstr "secret1") ∧
    Value.vstr "secret1" ≠ Value.vstr "" := by
  refine ⟨?_, by decide, by decide, by decide⟩
  simp [scanE, scanStates, standalonePass, standaloneStep, comboPass, redactPass,
        redactStep, finishScan, initState, alGet, alSet, alMem, fires, getRedactor,
        cfgC4, recC4, resC4, presentKeys, dedupAppend, comboMsg, pymin, round2,
        rhe, soloMsg]
  norm_num [Rat.mkRat_eq_div]
  decide

/-- C4 (amended): for every field of the (deduplicated) pending set, the
pending-redaction loop rewrites the sanitized copy according to its
placeholder assignment — a recognized strategy name applies that strategy
to the field's ORIGINAL input value, any other NON-EMPTY literal is
stored as is, and a missing or empty-string assignment leaves the
sanitized value unchanged (`redactSpec`); fields outside the pending set
are untouched by this loop. -/
theorem combinatorial_redaction_spec (ks : List String) (st st2 : ScanState)
    (hnd : ks.Nodup) (hok : redactPass ks st = .ok st2) :
    (∀ k ∈ ks, alGet st2.safe k = redactSpec st.cfg st.record (alGet st.safe k) k) ∧
    (∀ k, k ∉ ks → alGet st2.safe k = alGet st.safe k) := by
  constructor
  · intro k hk
    exact redactPass_get_in ks st st2 k hok hnd hk
  · intro k hk
    exact redactPass_get_notin ks st st2 k hok hk

def cfgC4w : Config :=
  { standalone_pii_patterns := [],
    combinatorial_pii_sets := [],
    redaction_placeholders := [("a", "mask_string"), ("c", "REDACTED"), ("d", "")] }

def recC4w : Dict :=
  [("a", .vstr "secret1"), ("c", .vstr "paris"), ("d", .vstr "keepme"),
   ("e", .vstr "inert")]

def stC4a : ScanState := initState cfgC4w recC4w

def stC4b : ScanState :=
  ⟨cfgC4w, recC4w,
   [("a", .vstr "seXXXt1"), ("c", .vstr "REDACTED"), ("d", .vstr "keepme"),
    ("e", .vstr "inert")], 0, []⟩

/-- C4 witness: the amended pending-redaction behaviour evaluated at the
field `"a"` of a pending set with a strategy, a literal, and an empty
placeholder. -/
theorem combinatorial_redaction_spec_witness :
    alGet stC4b.safe "a" =
      redactSpec stC4a.cfg stC4a.record (alGet stC4a.safe "a") "a" :=
  (combinatorial_redaction_spec ["a", "c", "d"] stC4a stC4b (by decide)
    (by simp [redactPass, redactStep, cfgC4w, recC4w, stC4a, stC4b, initState,
          alGet, alSet, getRedactor, mask_string, maskStrS, maskChars])).1
    "a" (by decide)

/-- C7: when every redactor name referenced by a standalone rule is a
recognized strategy, `scan` is total: it returns a result on every
record (the masking strategies are total functions into strings by
construction, and a non-string or absent field is skipped rather than
an error), so no exception escapes the scan. -/
theorem scan_total_on_valid_config (cfg : Config) (r : Dict)
    (h : ValidConfig cfg) : ∃ res, scanE cfg r = .ok res := by
  rcases scanStates_total cfg r h with ⟨st, hs⟩
  refine ⟨finishScan st, ?_⟩
  unfold scanE
  rw [hs]

def cfgC7 : Config :=
  { standalone_pii_patterns :=
      [("ssn", ⟨fun s => s == "123-45-6789", mkRat 9 10, "mask_string"⟩),
       ("email", ⟨fun s => s == "jane.doe@example.com", mkRat 8 10, "mask_email"⟩),
       ("phone", ⟨fun s => s == "9876543210", mkRat 7 10, "mask_numeric"⟩)],
    combinatorial_pii_sets := [("name_loc", ⟨["first_name", "city"], mkRat 3 10⟩)],
    redaction_placeholders := [("first_name", "mask_string"), ("city", "CITY")] }

def recC7 : Dict :=
  [("ssn", .vother "12345"), ("email", .vstr "jane.doe@example.com"),
   ("first_name", .vstr "Jon"), ("city", .vstr "Paris")]

/-- C7 witness: totality evaluated on a catalog using all three
strategies, against a record holding a non-string `ssn`. -/
theorem scan_total_on_valid_config_witness :
    (scanE cfgC7 recC7).isOk = true := by
  rcases scan_total_on_valid_config cfgC7 recC7
    (by intro p hp
        simp only [cfgC7, List.mem_cons, List.mem_singleton] at hp
        rcases hp with rfl | rfl | rfl | h
        · rfl
        · rfl
        · rfl
        · exact absurd h (List.not_mem_nil p)) with ⟨res, h⟩
  rw [h]
  rfl

/-- C9: `scan` never writes to the input record or the catalog: the
final state of the three loops carries the input record and the
configuration unchanged (in the embedding every assignment of the source
updates the `safe`, `score` or `log` component only), and the sanitized
dictionary is built from the copy made at entry. -/
theorem scan_preserves_input (cfg : Config) (r : Dict) (st : ScanState)
    (hok : scanStates cfg r = .ok st) : st.record = r ∧ st.cfg = cfg := by
  rcases scanStates_spec cfg r st hok with ⟨h1, h2, _, _⟩
  exact ⟨h2, h1⟩

def cfgC9 : Config :=
  { standalone_pii_patterns :=
      [("ssn", ⟨fun s => s == "123-45-6789", mkRat 9 10, "mask_string"⟩)],
    combinatorial_pii_sets := [("pair", ⟨["a", "b"], mkRat 3 10⟩)],
    redaction_placeholders := [("a", "mask_string")] }

def recC9 : Dict := [("note", .vstr "hello")]

/-- C9 witness: the frame property evaluated on a record that matches no
rule, where the final state is the initial one. -/
theorem scan_preserves_input_witness :
    (initState cfgC9 recC9).record = recC9 ∧
    (initState cfgC9 recC9).cfg = cfgC9 :=
  scan_preserves_input cfgC9 recC9 (initState cfgC9 recC9) rfl

/-- C10: the sanitized record returned by `scan` has exactly the key
list of the input record, and any field that neither fires a standalone
rule nor belongs to the combinatorial pending-redaction set keeps its
original value. -/
theorem scan_fields_preserved (cfg : Config) (r : Dict) (res : ScanResult)
    (hok : scanE cfg r = .ok res) :
    alKeys res.safe_rec = alKeys r ∧
    ∀ k, (∀ p ∈ cfg.standalone_pii_patterns, p.1 = k → fires r p.1 p.2 = false) →
      k ∉ comboKeysPure r cfg.combinatorial_pii_sets →
      alGet res.safe_rec k = alGet r k := by
  rcases scanE_ok_inv cfg r res hok with ⟨st, hs, hres⟩
  have hsafe : res.safe_rec = st.safe := by rw [hres]; rfl
  rcases scanStates_spec cfg r st hs with ⟨_, _, _, h4⟩
  refine ⟨by rw [hsafe, h4], ?_⟩
  intro k hk1 hk2
  rw [hsafe]
  exact scanStates_get cfg r st k hs hk1 hk2

def resC10 : ScanResult :=
  { safe_rec := [("ssn", .vstr "12XXXXXXX89"), ("note", .vstr "write to a@b.com today")],
    is_pii := true, confidence := mkRat 9 10, reason := "found solo pii [ssn]" }

/-- C10 witness: the untouched field `"note"` of the C2 catalog keeps
its value in the sanitized record. -/
theorem scan_fields_preserved_witness :
    alGet resC10.safe_rec "note" = alGet recC2 "note" :=
  (scan_fields_preserved cfgC2 recC2 resC10
    (by simp [scanE, scanStates, standalonePass, standaloneStep, comboPass,
          redactPass, finishScan, initState, alGet, alSet, fires, getRedactor,
          cfgC2, rulesC2, recC2, resC10, mask_string, maskStrS, maskChars, pymin,
          round2, rhe, soloMsg]
        norm_num [Rat.mkRat_eq_div]
        decide)).2
    "note" (by decide) (by decide)

theorem standaloneScore_eq_zero (r : Dict) (rules : List (String × StandaloneRule))
    (h : ∀ p ∈ rules, fires r p.1 p.2 = false) : standaloneScore r rules = 0 := by
  unfold standaloneScore
  apply List.sum_eq_zero
  intro x hx
  rcases List.mem_map.mp hx with ⟨p, hp, rfl⟩
  simp [h p hp]

theorem presentKeys_congr (r1 r2 : Dict) (h : alKeys r1 = alKeys r2)
    (rule : ComboRule) : presentKeys r1 rule = presentKeys r2 rule := by
  unfold presentKeys
  apply List.filter_congr
  intro k _
  exact alMem_eq_of_keys_eq r1 r2 h k

theorem comboScorePure_congr (r1 r2 : Dict) (h : alKeys r1 = alKeys r2)
    (rules : List (String × ComboRule)) :
    comboScorePure r1 rules = comboScorePure r2 rules := by
  induction rules with
  | nil => rfl
  | cons p rest ih =>
    unfold comboScorePure at ih ⊢
    simp only [List.map_cons, List.sum_cons]
    rw [presentKeys_congr r1 r2 h p.2, ih]

/-- C8: for non-negative standalone base scores and a valid catalog, if
no string value of the sanitized record full-matches any standalone
rule's pattern, then scanning the sanitized record again succeeds and
reports a confidence at most the original one: the second standalone
pass contributes 0 and the combinatorial score is unchanged because the
sanitized record has the same keys. -/
theorem scan_rescan_confidence_le (cfg : Config) (r : Dict) (res : ScanResult)
    (hval : ValidConfig cfg)
    (hnn : ∀ p ∈ cfg.standalone_pii_patterns, 0 ≤ p.2.base_score)
    (hok : scanE cfg r = .ok res)
    (hnm : ∀ p ∈ cfg.standalone_pii_patterns, ∀ k s,
      alGet res.safe_rec k = some (.vstr s) → p.2.pattern s = false) :
    ∃ res2, scanE cfg res.safe_rec = .ok res2 ∧ res2.confidence ≤ res.confidence := by
  rcases scanE_ok_inv cfg r res hok with ⟨st, hs, hres⟩
  have hsafe : res.safe_rec = st.safe := by rw [hres]; rfl
  rcases scanStates_spec cfg r st hs with ⟨_, _, hscore, hkeys⟩
  rcases scanStates_total cfg res.safe_rec hval with ⟨st2, hs2⟩
  rcases scanStates_spec cfg res.safe_rec st2 hs2 with ⟨_, _, hscore2, _⟩
  have hnof : ∀ p ∈ cfg.standalone_pii_patterns, fires res.safe_rec p.1 p.2 = false := by
    intro p hp
    rcases Bool.eq_false_or_eq_true (fires res.safe_rec p.1 p.2) with hf | hf
    · rcases (fires_iff_exists _ _ _).mp hf with ⟨s, hv, hpat⟩
      rw [hnm p hp p.1 s hv] at hpat
      exact absurd hpat (by simp)
    · exact hf
  have hz : standaloneScore res.safe_rec cfg.standalone_pii_patterns = 0 :=
    standaloneScore_eq_zero _ _ hnof
  have hcombo : comboScorePure res.safe_rec cfg.combinatorial_pii_sets =
      comboScorePure r cfg.combinatorial_pii_sets := by
    apply comboScorePure_congr
    rw [hsafe]
    exact hkeys
  have hle : st2.score ≤ st.score := by
    rw [hscore2, hz, hscore, hcombo, zero_add]
    have := standaloneScore_nonneg r cfg.standalone_pii_patterns hnn
    linarith
  refine ⟨finishScan st2, ?_, ?_⟩
  · unfold scanE
    rw [hs2]
  · rw [hres]
    show round2 (pymin 1 st2.score) ≤ round2 (pymin 1 st.score)
    apply round2_mono
    rw [pymin_eq_min, pymin_eq_min]
    exact min_le_min_left 1 hle

def cfgC8 : Config :=
  { standalone_pii_patterns :=
      [("ssn", ⟨fun s => s == "123-45-6789", mkRat 9 10, "mask_string"⟩)],
    combinatorial_pii_sets := [],
    redaction_placeholders := [] }

def recC8 : Dict := [("ssn", .vstr "123-45-6789")]

def resC8 : ScanResult :=
  { safe_rec := [("ssn", .vstr "12XXXXXXX89")], is_pii := true,
    confidence := mkRat 9 10, reason := "found solo pii [ssn]" }

def resC8b : ScanResult :=
  { safe_rec := [("ssn", .vstr "12XXXXXXX89")], is_pii := false,
    confidence := 0, reason := "No PII detected" }

/-- C8 witness: rescanning the sanitized `ssn` record reports
confidence 0, at most the original 0.9. -/
theorem scan_rescan_confidence_le_witness :
    resC8b.confidence ≤ resC8.confidence := by
  have heq : scanE cfgC8 resC8.safe_rec = .ok resC8b := by
    simp [scanE, scanStates, standalonePass, standaloneStep, comboPass, redactPass,
          finishScan, initState, alGet, alSet, fires, getRedactor, cfgC8, resC8,
          resC8b, mask_string, maskStrS, maskChars, pymin, round2, rhe, soloMsg]
  rcases scan_rescan_confidence_le cfgC8 recC8 resC8
    (by intro p hp
        simp only [cfgC8, List.mem_singleton] at hp
        subst hp
        rfl)
    (by intro p hp
        simp only [cfgC8, List.mem_singleton] at hp
        subst hp
        decide)
    (by simp [scanE, scanStates, standalonePass, standaloneStep, comboPass,
          redactPass, finishScan, initState, alGet, alSet, fires, getRedactor,
          cfgC8, recC8, resC8, mask_string, maskStrS, maskChars, pymin, round2,
          rhe, soloMsg]
        norm_num [Rat.mkRat_eq_div]
        decide)
    (by intro p hp k s h
        simp only [cfgC8, List.mem_singleton] at hp
        subst hp
        simp only [resC8, alGet] at h
        split at h
        · simp only [Option.some.injEq, Value.vstr.injEq] at h
          subst h
          decide
        · exact absurd h (by simp)) with ⟨res2, hok2, hle⟩
  have h3 : resC8b = res2 := by
    have := heq.symm.trans hok2
    exact Except.ok.inj this
  rw [h3]
  exact hle
